import Mathlib

/-!
# Verification of the pdf2markdown page-range pipeline

A shallow embedding, over `List Char` (Python `str`) and `Int`/`Nat`, of the
core of the pdf2markdown repository:

* `core/Util.py`            — `remove_markdown_warp` (the output sanitizer);
* `core/PDFWorker.py`       — page-range normalization (`__init__` plus
  `extract_pages`) and the raster file naming of `convert_to_images`;
* `pdf2markdown_core.py`    — the retry loop `_convert_image_to_markdown`,
  the Ollama cleanup `_clean_ollama_output`, and the page-assembly loop of
  `convert_pdf_to_markdown`;
* `main.py`                 — the CLI `completion` retry loop and the CLI
  assembly / cleanup control flow.

Python strings are modelled as `List Char`; Python exceptions as `Except`;
`str.strip` as dropping the ASCII whitespace characters Python strips.
-/

namespace Pdf2Markdown

/-! ## Python string primitives (on `List Char`) -/

/-- The characters removed by Python `str.strip()` (ASCII fragment). -/
def isPySpace (c : Char) : Bool :=
  c = ' ' || c = '\t' || c = '\n' || c = '\r' || c = '\x0b' || c = '\x0c'

/-- Python `str.lstrip()`. -/
def lstrip (l : List Char) : List Char := l.dropWhile isPySpace

/-- Python `str.rstrip()`. -/
def rstrip (l : List Char) : List Char := (l.reverse.dropWhile isPySpace).reverse

/-- Python `str.strip()`. -/
def strip (l : List Char) : List Char := rstrip (lstrip l)

/-- Python `str.startswith`. -/
def startswith : List Char → List Char → Bool
  | [], _ => true
  | _ :: _, [] => false
  | p :: ps, c :: cs => p = c && startswith ps cs

/-- Python `str.endswith`. -/
def endswith (p l : List Char) : Bool := startswith p.reverse l.reverse

/-- Python `s[:-n]` for `n ≤ len(s)`. -/
def dropRight (l : List Char) (n : Nat) : List Char := l.take (l.length - n)

/-- Python `str.lower()` (ASCII-adequate model). -/
def lower (l : List Char) : List Char := l.map Char.toLower

/-! ## `core/Util.py` : `remove_markdown_warp` -/

/-- Line 6–7 of `core/Util.py`: `if text.startswith("```" + language):
text = text[len("```" + language):]`. -/
def stripLeadingFence (t language : List Char) : List Char :=
  if startswith ('`' :: '`' :: '`' :: language) t
  then t.drop ('`' :: '`' :: '`' :: language).length else t

/-- Line 8–9 of `core/Util.py`: `if text.endswith("```"): text = text[:-len("```")]`. -/
def stripTrailingFence (t : List Char) : List Char :=
  if endswith ['`', '`', '`'] t then dropRight t 3 else t

/-- `core/Util.py`, `remove_markdown_warp(text, language="markdown")`:
strip, drop a leading ```` ```language ```` token if present, drop a
trailing ```` ``` ```` token if present, strip again. -/
def remove_markdown_warp (text : List Char) (language : List Char) : List Char :=
  strip (stripTrailingFence (stripLeadingFence (strip text) language))

/-! ## `pdf2markdown_core.py` : `_clean_ollama_output` -/

/-- Python `s.split('\n')` (one accumulator pass; `cur` holds the current
segment reversed). -/
def splitNLAux : List Char → List Char → List (List Char)
  | [], cur => [cur.reverse]
  | c :: cs, cur =>
    if c = '\n' then cur.reverse :: splitNLAux cs [] else splitNLAux cs (c :: cur)

/-- Python `s.split('\n')`. -/
def splitNL (l : List Char) : List (List Char) := splitNLAux l []

/-- Python `s.split('\n\n')` (leftmost, non-overlapping). -/
def splitParaAux : List Char → List Char → List (List Char)
  | [], cur => [cur.reverse]
  | [c], cur => [(c :: cur).reverse]
  | c :: c2 :: cs, cur =>
    if c = '\n' ∧ c2 = '\n' then cur.reverse :: splitParaAux cs []
    else splitParaAux (c2 :: cs) (c :: cur)

/-- Python `s.split('\n\n')`. -/
def splitPara (l : List Char) : List (List Char) := splitParaAux l []

/-- Python `'\n'.join(ls)`. -/
def joinNL : List (List Char) → List Char
  | [] => []
  | [l] => l
  | l :: ls => l ++ '\n' :: joinNL ls

/-- The blank-line separator `"\n\n"`. -/
def nl2 : List Char := ['\n', '\n']

/-- Python `'\n\n'.join(ls)`. -/
def join2NL : List (List Char) → List Char
  | [] => []
  | [l] => l
  | l :: ls => l ++ nl2 ++ join2NL ls

/-- The line pass of `_clean_ollama_output`: strip each line, collapse runs
of blank lines to one, drop case-insensitive duplicates of nonempty lines
(`seen` is the set of lowercased lines already kept; `prev` records whether
the last kept line was blank, `none` when nothing has been kept yet). -/
def cleanLines (seen : List (List Char)) (prev : Option Bool) :
    List (List Char) → List (List Char)
  | [] => []
  | l :: ls =>
    let s := strip l
    if s = [] then
      if prev = some true then cleanLines seen prev ls
      else [] :: cleanLines seen (some true) ls
    else
      if lower s ∈ seen then cleanLines seen prev ls
      else s :: cleanLines (lower s :: seen) (some false) ls

/-- The paragraph pass of `_clean_ollama_output`: strip each paragraph, keep
the nonempty ones not already seen (case-insensitively). -/
def uniqueParas (seen : List (List Char)) : List (List Char) → List (List Char)
  | [] => []
  | p :: ps =>
    let q := strip p
    if q ≠ [] ∧ lower q ∉ seen then q :: uniqueParas (lower q :: seen) ps
    else uniqueParas seen ps

/-- `pdf2markdown_core.py`, `PdfToMarkdownProcessor._clean_ollama_output`. -/
def clean_ollama_output (content : List Char) : List Char :=
  if content = [] then content
  else
    let lines := splitNL content
    let cleaned := cleanLines [] none lines
    let result := joinNL cleaned
    let paragraphs := splitPara result
    strip (join2NL (uniqueParas [] paragraphs))

/-! ## `core/PDFWorker.py` : page-range normalization -/

/-- The validation at the top of `PDFWorker.__init__` (lines 24–28): an
out-of-range `start_page` resets to 1, an `end_page` of 0 or beyond the last
page resets to `total_pages`. -/
def initNormalize (start_page end_page total_pages : Int) : Int × Int :=
  (if start_page < 1 ∨ start_page > total_pages then 1 else start_page,
   if end_page = 0 ∨ end_page > total_pages then total_pages else end_page)

/-- The 0-based clamp-and-swap at the top of `PDFWorker.extract_pages`
(lines 68–74). -/
def extract_pages_bounds (total_pages start_page end_page : Int) : Int × Int :=
  let start := max 0 (start_page - 1)
  let e := min (total_pages - 1) (end_page - 1)
  if start > e then (e, start) else (start, e)

/-- The page range the worker ends up processing: `__init__` validation,
then (except in the no-extraction full-document case) the
`extract_pages` clamp-and-swap, converted back to 1-based pages. -/
def pdfworker_range (start_page end_page total_pages : Int) : Int × Int :=
  let se := initNormalize start_page end_page total_pages
  if se.1 = 1 ∧ se.2 = total_pages then (1, total_pages)
  else
    let ab := extract_pages_bounds total_pages se.1 se.2
    (ab.1 + 1, ab.2 + 1)

/-- Modelled from the spec (§4.1): `normalize(requestedStart, requestedEnd,
totalPages)` — reset an out-of-bounds start to 1, an end of 0 or beyond the
total to the total, then swap if start exceeds end. -/
def normalize_spec (requestedStart requestedEnd totalPages : Int) : Int × Int :=
  let s := if requestedStart < 1 ∨ requestedStart > totalPages then 1 else requestedStart
  let e := if requestedEnd = 0 ∨ requestedEnd > totalPages then totalPages else requestedEnd
  if s > e then (e, s) else (s, e)

/-! ## `core/PDFWorker.py` : raster file names, and the assembly sort -/

/-- One decimal digit as a character. -/
def digitChar (n : Nat) : Char := Char.ofNat (48 + n)

/-- Decimal digits of `n`, most significant first (`fuel` bounds the number
of digits; `natDigits` supplies enough). -/
def natDigitsAux : Nat → Nat → List Char → List Char
  | 0, _, acc => acc
  | fuel + 1, n, acc =>
    let acc := digitChar (n % 10) :: acc
    if n / 10 = 0 then acc else natDigitsAux fuel (n / 10) acc

/-- Decimal representation of `n`. -/
def natDigits (n : Nat) : List Char := natDigitsAux (n + 1) n []

/-- Python `f"{n:04d}"`: decimal digits left-padded with `'0'` to width 4. -/
def pad4 (n : Nat) : List Char :=
  let ds := natDigits n
  List.replicate (4 - ds.length) '0' ++ ds

/-- `PDFWorker.convert_to_images` (line 121–123): the raster image written
for 0-based page `page_num` is named `page_{page_num+1:04d}.jpg`. -/
def rasterFileName (page_num : Nat) : List Char :=
  "page_".data ++ pad4 (page_num + 1) ++ ".jpg".data

/-- Python string `<` : lexicographic comparison by code point. -/
def strLt : List Char → List Char → Bool
  | [], [] => false
  | [], _ :: _ => true
  | _ :: _, [] => false
  | a :: as, b :: bs => if a = b then strLt as bs else decide (a < b)

/-- Insertion step of the `sorted(...)` model. -/
def insertSorted (x : List Char) : List (List Char) → List (List Char)
  | [] => [x]
  | y :: ys => if strLt y x then y :: insertSorted x ys else x :: y :: ys

/-- Python `sorted(...)` on a list of strings (an insertion sort with the
same ordering; `convert_pdf_to_markdown` and `main.py` iterate
`sorted(img_paths)`). -/
def pySorted : List (List Char) → List (List Char)
  | [] => []
  | x :: xs => insertSorted x (pySorted xs)

/-! ## Retry loops -/

/-- The cleaning applied to a successful response inside
`_convert_image_to_markdown`: always `remove_markdown_warp(·, "markdown")`,
plus `_clean_ollama_output` for the Ollama provider. -/
def cleanResponse (ollama : Bool) (r : List Char) : List Char :=
  let c := remove_markdown_warp r "markdown".data
  if ollama then clean_ollama_output c else c

/-- The loop body of `PdfToMarkdownProcessor._convert_image_to_markdown`
(pdf2markdown_core.py lines 272–306), iterating over the outcome of each
remaining completion call (`none` = raised, `some r` = returned `r`):
an empty response or a raise moves to the next attempt, except that a raise
on the last attempt (`attempt = retry_times - 1`) raises `ProcessingError`;
the loop running out also raises. Returns the number of completion calls
made and the cleaned response or the error. -/
def convertImageGo (ollama : Bool) (retry_times : Nat) :
    List (Option (List Char)) → Nat → Nat × Except Unit (List Char)
  | [], attempt => (attempt, .error ())
  | r :: rest, attempt =>
    match r with
    | some s =>
      if s ≠ [] then (attempt + 1, .ok (cleanResponse ollama s))
      else convertImageGo ollama retry_times rest (attempt + 1)
    | none =>
      if attempt = retry_times - 1 then (attempt + 1, .error ())
      else convertImageGo ollama retry_times rest (attempt + 1)

/-- `PdfToMarkdownProcessor._convert_image_to_markdown`: the
`for attempt in range(retry_times)` loop plus the final raise
(`retry_times` defaults to 3 in the source). -/
def convertImageRetry (ollama : Bool) (responses : Nat → Option (List Char))
    (retry_times : Nat := 3) : Nat × Except Unit (List Char) :=
  convertImageGo ollama retry_times ((List.range retry_times).map responses) 0

/-- The retry loop of `completion` in `main.py` (lines 64–78): return the
response of the first non-raising call (even an empty one); after a raising
call sleep 0.5 s and try again; after the loop return the empty string.
Result: the returned string and the number of 0.5 s sleeps performed. -/
def completionGo : List (Option (List Char)) → Nat → List Char × Nat
  | [], sleeps => ([], sleeps)
  | r :: rest, sleeps =>
    match r with
    | some s => (s, sleeps)
    | none => completionGo rest (sleeps + 1)

/-- `main.py`, `completion` (`retry_times` defaults to 3 in the source). -/
def completionRetry (responses : Nat → Option (List Char))
    (retry_times : Nat := 3) : List Char × Nat :=
  completionGo ((List.range retry_times).map responses) 0

instance {ε α : Type} [DecidableEq ε] [DecidableEq α] : DecidableEq (Except ε α) :=
  fun x y =>
    match x, y with
    | .ok a, .ok b =>
      if h : a = b then .isTrue (by rw [h]) else .isFalse (by intro hc; cases hc; exact h rfl)
    | .error a, .error b =>
      if h : a = b then .isTrue (by rw [h]) else .isFalse (by intro hc; cases hc; exact h rfl)
    | .ok _, .error _ => .isFalse (by intro hc; cases hc)
    | .error _, .ok _ => .isFalse (by intro hc; cases hc)

/-! ## `pdf2markdown_core.py` : the assembly loop of
`convert_pdf_to_markdown` -/

/-- A pipeline-fatal error of `convert_pdf_to_markdown`. -/
inductive ProcessingError where
  /-- `ProcessingError("Failed to convert PDF to images")` (line 128). -/
  | noImages : ProcessingError
  /-- `ProcessingError("No content was generated from the PDF")` (line 154). -/
  | noContent : ProcessingError
deriving DecidableEq, Repr

/-- The page loop of `convert_pdf_to_markdown` (lines 135–151), with pages
enumerated from `i` (0-based) out of `n`: a failed page (`none`) is skipped,
a nonempty content is appended followed by `"\n\n"` unless it is the last
page position. -/
def assembleGo (n : Nat) : Nat → List (Option (List Char)) → List Char
  | _, [] => []
  | i, r :: rs =>
    (match r with
     | none => []
     | some c => if c ≠ [] then c ++ (if i + 1 < n then nl2 else []) else []) ++
    assembleGo n (i + 1) rs

/-- Position-free form of the page loop: every page but the structurally
last one appends a separator after its nonempty content. -/
def assemble : List (Option (List Char)) → List Char
  | [] => []
  | [r] => (match r with | none => [] | some c => if c ≠ [] then c else [])
  | r :: rs =>
    (match r with | none => [] | some c => if c ≠ [] then c ++ nl2 else []) ++
    assemble rs

/-- The texts the assembled document is made of: contents of the successful
pages that produced nonempty text, in page order. -/
def successTexts (rs : List (Option (List Char))) : List (List Char) :=
  (rs.filterMap id).filter (fun c => decide (c ≠ []))

/-- `convert_pdf_to_markdown` after rasterization, as a function of the
per-page outcomes in the order the loop visits the pages — which is
`sorted(img_paths)`, lexical file-name order; `convert_pdf_from_images`
below composes that sorting step in front of this stage. Raise `noImages`
on an empty image list, run the page loop, raise `noContent` when the
accumulated markdown strips to nothing, else return it stripped. -/
def convert_pdf_to_markdown (results : List (Option (List Char))) :
    Except ProcessingError (List Char) :=
  if results.length = 0 then .error .noImages
  else
    let md := assembleGo results.length 0 results
    if strip md = [] then .error .noContent
    else .ok (strip md)

/-- Decidable form of "every successful page's text is strip-fixed" (true of
every text produced by `remove_markdown_warp` / `_clean_ollama_output`). -/
def allTrimmed (rs : List (Option (List Char))) : Bool :=
  rs.all (fun r => match r with | none => true | some c => strip c == c)

/-- Decidable form of "some page succeeded with nonempty text". -/
def anySuccess (rs : List (Option (List Char))) : Bool :=
  rs.any (fun r => match r with | none => false | some c => !(c == []))

/-! ## Invocation-level models with cleanup tracking -/

/-- `convert_pdf_to_markdown` as a whole invocation (lines 110–170):
`copyOk`/`workerOk` inject whether `shutil.copy2` / `create_worker` raise;
any such exception is wrapped into a `ProcessingError` by the
`except` clause. The second component records whether the `finally` block
removed the temporary directory — it runs on every path. -/
inductive PipelineError where
  /-- A wrapped non-`ProcessingError` exception. -/
  | wrapped : PipelineError
  /-- A `ProcessingError` re-raised as such. -/
  | processing : ProcessingError → PipelineError
deriving DecidableEq, Repr

/-- The Streamlit-core pipeline invocation with its `try/except/finally`:
result of the body, paired with `true` because the `finally` cleanup runs on
every exit path. -/
def convert_pdf_run (copyOk workerOk : Bool) (results : List (Option (List Char))) :
    Except PipelineError (List Char) × Bool :=
  (if copyOk = false then .error .wrapped
   else if workerOk = false then .error .wrapped
   else match convert_pdf_to_markdown results with
     | .error e => .error (.processing e)
     | .ok md => .ok md,
   true)

/-- The CLI `__main__` path of `main.py` (lines 172–203) after the working
directory and input file are created: if `create_worker` raises
`ValueError` the script exits 1 without touching the directory; otherwise
the loop appends each nonempty page text followed by `"\n\n"`, prints, and
only then removes the working directory. Second component: whether
`shutil.rmtree(output_dir)` ran. -/
def main_run (workerOk : Bool) (pageTexts : List (List Char)) :
    Except Unit (List Char) × Bool :=
  if workerOk then
    (.ok (pageTexts.foldl (fun acc c => if c ≠ [] then acc ++ c ++ nl2 else acc) []),
     true)
  else (.error (), false)

/-! ## The full assembly pipeline, sorted-iteration step included -/

/-- The raster image list `convert_to_images` produces for an `n`-page
document: `page_{page_num+1:04d}.jpg` for `page_num` in `range(len(doc))`,
appended in ascending page order. -/
def documentRasters (n : Nat) : List (List Char) :=
  (List.range n).map rasterFileName

/-- The assembly stage of `convert_pdf_to_markdown` including its iteration
order (line 135): the loop visits `sorted(img_paths)` and transcribes each
image, so the per-page outcomes reach the accumulation loop in ascending
lexical filename order. `transcribe` injects the outcome of
`_convert_image_to_markdown` for each image path. -/
def convert_pdf_from_images (imgPaths : List (List Char))
    (transcribe : List Char → Option (List Char)) :
    Except ProcessingError (List Char) :=
  convert_pdf_to_markdown ((pySorted imgPaths).map transcribe)

/-- A concrete transcription environment for a 10000-page document: the
pages named `page_10000.jpg` (0-based index 9999) and `page_9999.jpg`
(0-based index 9998) succeed with texts `B` and `A`; every other page
fails. -/
def pageTranscribe10000 (p : List Char) : Option (List Char) :=
  if p = rasterFileName 9999 then some "B".data
  else if p = rasterFileName 9998 then some "A".data
  else none

/-- A concrete transcription environment for a 3-page document: pages 1 and
3 succeed, page 2 fails. -/
def transcribeThreePages (p : List Char) : Option (List Char) :=
  if p = rasterFileName 0 then some "Page one".data
  else if p = rasterFileName 2 then some "Page three".data
  else none

/-- Adjacent-pairs ascending chain for the string order `strLt` (no later
element lexicographically below its predecessor). -/
def ascChainB : List (List Char) → Bool
  | [] => true
  | [_] => true
  | x :: y :: rest => !(strLt y x) && ascChainB (y :: rest)

/-! ## Generic facts about the string primitives -/

/-- `m` occurs contiguously inside `l`. -/
def Sand (m l : List Char) : Prop := ∃ a b, l = a ++ m ++ b

theorem sand_refl (l : List Char) : Sand l l := ⟨[], [], by simp⟩

theorem sand_trans {m l k : List Char} (h1 : Sand m l) (h2 : Sand l k) : Sand m k := by
  obtain ⟨a, b, rfl⟩ := h1
  obtain ⟨c, d, rfl⟩ := h2
  exact ⟨c ++ a, b ++ d, by simp⟩

theorem sand_length_le {m l : List Char} (h : Sand m l) : m.length ≤ l.length := by
  obtain ⟨a, b, rfl⟩ := h
  simp only [List.length_append]
  omega

theorem dropWhile_sand (p : Char → Bool) (l : List Char) : Sand (l.dropWhile p) l := by
  induction l with
  | nil => exact sand_refl []
  | cons c cs ih =>
    rw [List.dropWhile_cons]
    split
    · obtain ⟨a, b, hab⟩ := ih
      refine ⟨c :: a, b, ?_⟩
      simp only [List.cons_append]
      exact congrArg (c :: ·) hab
    · exact sand_refl _

theorem lstrip_sand (l : List Char) : Sand (lstrip l) l := dropWhile_sand _ l

theorem rstrip_sand (l : List Char) : Sand (rstrip l) l := by
  obtain ⟨a, b, hab⟩ := dropWhile_sand isPySpace l.reverse
  refine ⟨b.reverse, a.reverse, ?_⟩
  have := congrArg List.reverse hab
  simpa [List.reverse_append, List.append_assoc] using this

theorem strip_sand (l : List Char) : Sand (strip l) l :=
  sand_trans (rstrip_sand (lstrip l)) (lstrip_sand l)

theorem drop_sand (l : List Char) (n : Nat) : Sand (l.drop n) l :=
  ⟨l.take n, [], by simp⟩

theorem dropRight_sand (l : List Char) (n : Nat) : Sand (dropRight l n) l :=
  ⟨[], l.drop (l.length - n), by simp [dropRight]⟩

theorem lstrip_length_le (l : List Char) : (lstrip l).length ≤ l.length :=
  sand_length_le (lstrip_sand l)

theorem rstrip_length_le (l : List Char) : (rstrip l).length ≤ l.length :=
  sand_length_le (rstrip_sand l)

/-- A list equal to its own `lstrip`-sandwich decomposition with full length
has an empty left part. -/
theorem sand_eq_of_length {m l : List Char} (h : Sand m l) (hl : m.length = l.length) :
    m = l := by
  obtain ⟨a, b, rfl⟩ := h
  simp only [List.length_append] at hl
  have ha : a = [] := List.eq_nil_of_length_eq_zero (by omega)
  have hb : b = [] := List.eq_nil_of_length_eq_zero (by omega)
  simp [ha, hb]

/-- If `strip l = l` then already `lstrip l = l`. -/
theorem lstrip_eq_of_strip_eq {l : List Char} (h : strip l = l) : lstrip l = l := by
  have h1 : (strip l).length ≤ (lstrip l).length := rstrip_length_le (lstrip l)
  have h2 : (lstrip l).length ≤ l.length := lstrip_length_le l
  rw [h] at h1
  exact sand_eq_of_length (lstrip_sand l) (by omega)

/-- If `strip l = l` then already `rstrip l = l`. -/
theorem rstrip_eq_of_strip_eq {l : List Char} (h : strip l = l) : rstrip l = l := by
  have hl := lstrip_eq_of_strip_eq h
  unfold strip at h
  rwa [hl] at h

theorem dropWhile_eq_self_of_head {p : Char → Bool} {c : Char} {l : List Char}
    (hc : p c = false) : (c :: l).dropWhile p = c :: l := by
  simp [List.dropWhile_cons, hc]

/-- A nonempty `dropWhile`-fixed list has a head not satisfying the predicate. -/
theorem head_not_of_dropWhile_eq {p : Char → Bool} {c : Char} {l : List Char}
    (h : (c :: l).dropWhile p = c :: l) : p c = false := by
  by_contra hc
  have hc' : p c = true := by
    cases hpc : p c
    · exact absurd hpc hc
    · rfl
  rw [List.dropWhile_cons, if_pos hc'] at h
  have hlen := congrArg List.length h
  have hle := sand_length_le (dropWhile_sand p l)
  simp only [List.length_cons] at hlen
  omega

/-- `lstrip`-fixed nonempty lists absorb right appends. -/
theorem lstrip_append_of_fixed {t : List Char} (ht : lstrip t = t) (hne : t ≠ [])
    (z : List Char) : lstrip (t ++ z) = t ++ z := by
  cases t with
  | nil => exact absurd rfl hne
  | cons c cs =>
    have hc : isPySpace c = false := head_not_of_dropWhile_eq ht
    simpa [lstrip] using dropWhile_eq_self_of_head (l := cs ++ z) hc

/-- `rstrip`-fixed nonempty lists absorb left appends. -/
theorem rstrip_append_of_fixed {t : List Char} (ht : rstrip t = t) (hne : t ≠ [])
    (z : List Char) : rstrip (z ++ t) = z ++ t := by
  unfold rstrip at ht ⊢
  have hrev : t.reverse.dropWhile isPySpace = t.reverse := by
    have := congrArg List.reverse ht
    simpa using this
  cases hrt : t.reverse with
  | nil =>
    have : t = [] := by simpa using congrArg List.reverse hrt
    exact absurd this hne
  | cons c cs =>
    rw [hrt] at hrev
    have hc : isPySpace c = false := head_not_of_dropWhile_eq hrev
    rw [List.reverse_append, hrt]
    have hfix : (c :: (cs ++ z.reverse)).dropWhile isPySpace = c :: (cs ++ z.reverse) :=
      dropWhile_eq_self_of_head hc
    simp only [List.cons_append] at hfix ⊢
    rw [hfix]
    have hrt' := congrArg List.reverse hrt
    simp only [List.reverse_reverse] at hrt'
    simp [hrt']

theorem dropWhile_append_of_all {p : Char → Bool} {ws : List Char}
    (hws : ∀ c ∈ ws, p c = true) (l : List Char) :
    (ws ++ l).dropWhile p = l.dropWhile p := by
  induction ws with
  | nil => simp
  | cons c cs ih =>
    have hc := hws c (by simp)
    simp only [List.cons_append, List.dropWhile_cons, hc, if_pos]
    exact ih (fun d hd => hws d (by simp [hd]))

/-- Appending trailing whitespace does not change `rstrip` of a fixed list. -/
theorem rstrip_append_ws {t ws : List Char} (ht : rstrip t = t)
    (hws : ∀ c ∈ ws, isPySpace c = true) : rstrip (t ++ ws) = t := by
  unfold rstrip at ht ⊢
  have hrev : t.reverse.dropWhile isPySpace = t.reverse := by
    have := congrArg List.reverse ht
    simpa using this
  rw [List.reverse_append,
    dropWhile_append_of_all (fun c hc => hws c (by simpa using hc)), hrev]
  simp

theorem lstrip_lstrip (x : List Char) : lstrip (lstrip x) = lstrip x := by
  unfold lstrip
  rw [List.dropWhile_idempotent]

theorem rstrip_rstrip (x : List Char) : rstrip (rstrip x) = rstrip x := by
  unfold rstrip
  rw [List.reverse_reverse, List.dropWhile_idempotent]

/-- `rstrip y` is `y` with a run of trailing whitespace removed. -/
theorem rstrip_decomp (y : List Char) :
    ∃ ws, (∀ c ∈ ws, isPySpace c = true) ∧ y = rstrip y ++ ws := by
  refine ⟨(y.reverse.takeWhile isPySpace).reverse, ?_, ?_⟩
  · intro c hc
    simp only [List.mem_reverse] at hc
    exact List.mem_takeWhile_imp hc
  · unfold rstrip
    have := congrArg List.reverse (List.takeWhile_append_dropWhile (p := isPySpace)
      (l := y.reverse))
    simp only [List.reverse_append, List.reverse_reverse] at this
    exact this.symm

/-- `lstrip`-fixedness transfers to a nonempty left factor. -/
theorem lstrip_of_append_fixed {a b : List Char} (h : lstrip (a ++ b) = a ++ b)
    (ha : a ≠ []) : lstrip a = a := by
  cases a with
  | nil => exact absurd rfl ha
  | cons c cs =>
    have h' : (c :: (cs ++ b)).dropWhile isPySpace = c :: (cs ++ b) := by
      simpa [lstrip] using h
    have hc : isPySpace c = false := head_not_of_dropWhile_eq h'
    exact dropWhile_eq_self_of_head hc

theorem lstrip_strip (l : List Char) : lstrip (strip l) = strip l := by
  show lstrip (rstrip (lstrip l)) = rstrip (lstrip l)
  have hfix : lstrip (lstrip l) = lstrip l := lstrip_lstrip l
  obtain ⟨ws, _, hdecomp⟩ := rstrip_decomp (lstrip l)
  by_cases hr : rstrip (lstrip l) = []
  · rw [hr]
    rfl
  · rw [hdecomp] at hfix
    exact lstrip_of_append_fixed hfix hr

theorem strip_idem (l : List Char) : strip (strip l) = strip l := by
  show rstrip (lstrip (strip l)) = strip l
  rw [lstrip_strip]
  show rstrip (rstrip (lstrip l)) = rstrip (lstrip l)
  exact rstrip_rstrip _

/-! ## Facts about the sanitizer -/

theorem strip_fixed_rmw (text language : List Char) :
    strip (remove_markdown_warp text language) = remove_markdown_warp text language :=
  strip_idem _

theorem rstrip_strip (l : List Char) : rstrip (strip l) = strip l :=
  rstrip_rstrip (lstrip l)

theorem stripLeadingFence_pos {t language : List Char}
    (h : startswith ('`' :: '`' :: '`' :: language) t = true) :
    stripLeadingFence t language = t.drop ('`' :: '`' :: '`' :: language).length := by
  unfold stripLeadingFence
  rw [if_pos h]

theorem stripLeadingFence_neg {t language : List Char}
    (h : startswith ('`' :: '`' :: '`' :: language) t = false) :
    stripLeadingFence t language = t := by
  unfold stripLeadingFence
  rw [if_neg (by rw [h]; exact Bool.false_ne_true)]

theorem stripTrailingFence_pos {t : List Char}
    (h : endswith ['`', '`', '`'] t = true) :
    stripTrailingFence t = dropRight t 3 := by
  unfold stripTrailingFence
  rw [if_pos h]

theorem stripTrailingFence_neg {t : List Char}
    (h : endswith ['`', '`', '`'] t = false) :
    stripTrailingFence t = t := by
  unfold stripTrailingFence
  rw [if_neg (by rw [h]; exact Bool.false_ne_true)]

theorem stripLeadingFence_sand (t language : List Char) :
    Sand (stripLeadingFence t language) t := by
  unfold stripLeadingFence
  split
  · exact drop_sand _ _
  · exact sand_refl _

theorem stripTrailingFence_sand (t : List Char) : Sand (stripTrailingFence t) t := by
  unfold stripTrailingFence
  split
  · exact dropRight_sand _ _
  · exact sand_refl _

theorem rmw_sand (text language : List Char) :
    Sand (remove_markdown_warp text language) text := by
  unfold remove_markdown_warp
  exact sand_trans (strip_sand _)
    (sand_trans (stripTrailingFence_sand _)
      (sand_trans (stripLeadingFence_sand _ _) (strip_sand _)))

/-! ## Facts about the retry loops -/

theorem convertImageGo_count_le (ollama : Bool) (rt : Nat) :
    ∀ (rs : List (Option (List Char))) (attempt : Nat),
      (convertImageGo ollama rt rs attempt).1 ≤ attempt + rs.length := by
  intro rs
  induction rs with
  | nil => intro attempt; simp [convertImageGo]
  | cons r rest ih =>
    intro attempt
    match r with
    | some s =>
      by_cases hs : s ≠ []
      · simp only [convertImageGo, if_pos hs, List.length_cons]
        omega
      · simp only [convertImageGo, if_neg hs, List.length_cons]
        have := ih (attempt + 1)
        omega
    | none =>
      by_cases ha : attempt = rt - 1
      · simp only [convertImageGo, if_pos ha, List.length_cons]
        omega
      · simp only [convertImageGo, if_neg ha, List.length_cons]
        have := ih (attempt + 1)
        omega

theorem convertImageGo_error (ollama : Bool) (rt : Nat) :
    ∀ (rs : List (Option (List Char))) (attempt : Nat),
      (∀ r ∈ rs, r = none ∨ r = some []) →
      (convertImageGo ollama rt rs attempt).2 = .error () := by
  intro rs
  induction rs with
  | nil => intro attempt _; simp [convertImageGo]
  | cons r rest ih =>
    intro attempt hall
    have hr := hall r (by simp)
    have hrest : ∀ x ∈ rest, x = none ∨ x = some [] :=
      fun x hx => hall x (by simp [hx])
    rcases hr with hr | hr
    · subst hr
      by_cases ha : attempt = rt - 1
      · simp [convertImageGo, if_pos ha]
      · simp only [convertImageGo, if_neg ha]
        exact ih (attempt + 1) hrest
    · subst hr
      simp only [convertImageGo, ne_eq, not_true_eq_false, if_false,
        reduceIte]
      exact ih (attempt + 1) hrest

theorem completionGo_all_none :
    ∀ (rs : List (Option (List Char))), (∀ r ∈ rs, r = none) →
      ∀ sleeps, completionGo rs sleeps = ([], sleeps + rs.length) := by
  intro rs
  induction rs with
  | nil => intro _ sleeps; simp [completionGo]
  | cons r rest ih =>
    intro hall sleeps
    have hr := hall r (by simp)
    subst hr
    simp only [completionGo, List.length_cons]
    rw [ih (fun x hx => hall x (by simp [hx])) (sleeps + 1)]
    congr 1
    omega

/-! ## Facts about the assembly loop -/

theorem successTexts_cons_none (rs : List (Option (List Char))) :
    successTexts (none :: rs) = successTexts rs := by
  simp [successTexts, List.filterMap_cons]

theorem successTexts_cons_some {c : List Char} (rs : List (Option (List Char)))
    (hc : c ≠ []) : successTexts (some c :: rs) = c :: successTexts rs := by
  simp [successTexts, List.filterMap_cons, List.filter_cons, hc]

theorem successTexts_cons_some_nil (rs : List (Option (List Char))) :
    successTexts (some [] :: rs) = successTexts rs := by
  simp [successTexts, List.filterMap_cons, List.filter_cons]

/-- The indexed page loop agrees with its position-free form when started
at a position consistent with the total count. -/
theorem assembleGo_eq_assemble (n : Nat) :
    ∀ (rs : List (Option (List Char))) (i : Nat), i + rs.length = n →
      assembleGo n i rs = assemble rs := by
  intro rs
  induction rs with
  | nil => intro i _; rfl
  | cons r rest ih =>
    intro i hn
    cases rest with
    | nil =>
      have hi : ¬ (i + 1 < n) := by simp at hn; omega
      match r with
      | none => simp [assembleGo, assemble]
      | some c =>
        by_cases hc : c ≠ [] <;> simp [assembleGo, assemble, hc, if_neg hi]
    | cons r' rest' =>
      have hi : i + 1 < n := by simp at hn; omega
      have hrec :
          assembleGo n (i + 1) (r' :: rest') = assemble (r' :: rest') := by
        apply ih
        simp at hn ⊢
        omega
      match r with
      | none =>
        rw [show assembleGo n i (none :: r' :: rest')
            = [] ++ assembleGo n (i + 1) (r' :: rest') from rfl, hrec]
        simp [assemble]
      | some c =>
        rw [show assembleGo n i (some c :: r' :: rest')
            = (if c ≠ [] then c ++ (if i + 1 < n then nl2 else []) else []) ++
              assembleGo n (i + 1) (r' :: rest') from rfl, hrec]
        by_cases hc : c ≠ [] <;> simp [assemble, hc, if_pos hi]

/-- If no page contributed nonempty text, the loop accumulates nothing. -/
theorem assemble_eq_nil_of_no_success :
    ∀ rs : List (Option (List Char)), successTexts rs = [] → assemble rs = [] := by
  intro rs
  induction rs with
  | nil => intro _; rfl
  | cons r rest ih =>
    intro h
    cases rest with
    | nil =>
      match r with
      | none => rfl
      | some c =>
        by_cases hc : c ≠ []
        · rw [successTexts_cons_some [] hc] at h
          cases h
        · simp only [ne_eq, not_not] at hc
          subst hc
          simp [assemble]
    | cons r' rest' =>
      match r with
      | none =>
        rw [successTexts_cons_none] at h
        simpa [assemble] using ih h
      | some c =>
        by_cases hc : c ≠ []
        · rw [successTexts_cons_some _ hc] at h
          cases h
        · simp only [ne_eq, not_not] at hc
          subst hc
          rw [successTexts_cons_some_nil] at h
          simpa [assemble] using ih h

/-- The accumulated markdown is the blank-line join of the nonempty
successful texts, possibly followed by one trailing separator. -/
theorem assemble_decomp :
    ∀ rs : List (Option (List Char)),
      ∃ tr, (tr = [] ∨ tr = nl2) ∧
        assemble rs = join2NL (successTexts rs) ++ tr := by
  intro rs
  induction rs with
  | nil => exact ⟨[], Or.inl rfl, rfl⟩
  | cons r rest ih =>
    cases rest with
    | nil =>
      match r with
      | none => exact ⟨[], Or.inl rfl, rfl⟩
      | some c =>
        by_cases hc : c ≠ []
        · refine ⟨[], Or.inl rfl, ?_⟩
          rw [successTexts_cons_some [] hc]
          simp [assemble, successTexts, join2NL, hc]
        · simp only [ne_eq, not_not] at hc
          subst hc
          exact ⟨[], Or.inl rfl, by simp [assemble, successTexts_cons_some_nil,
            successTexts, join2NL]⟩
    | cons r' rest' =>
      obtain ⟨tr, htr, heq⟩ := ih
      match r with
      | none =>
        rw [show assemble (none :: r' :: rest') = assemble (r' :: rest') by
          simp [assemble], successTexts_cons_none]
        exact ⟨tr, htr, heq⟩
      | some c =>
        by_cases hc : c ≠ []
        · rw [show assemble (some c :: r' :: rest')
              = (c ++ nl2) ++ assemble (r' :: rest') by simp [assemble, hc],
            successTexts_cons_some _ hc]
          cases hts : successTexts (r' :: rest') with
          | nil =>
            have hnil : assemble (r' :: rest') = [] :=
              assemble_eq_nil_of_no_success _ hts
            refine ⟨nl2, Or.inr rfl, ?_⟩
            rw [hnil]
            simp [join2NL]
          | cons t ts =>
            refine ⟨tr, htr, ?_⟩
            rw [heq, hts]
            simp [join2NL]
        · simp only [ne_eq, not_not] at hc
          subst hc
          rw [show assemble (some [] :: r' :: rest') = assemble (r' :: rest') by
            simp [assemble], successTexts_cons_some_nil]
          exact ⟨tr, htr, heq⟩

theorem nl2_all_space : ∀ c ∈ nl2, isPySpace c = true := by decide

theorem join2NL_ne_nil {t : List Char} (ts : List (List Char)) (ht : t ≠ []) :
    join2NL (t :: ts) ≠ [] := by
  cases ts with
  | nil => simpa [join2NL] using ht
  | cons t2 ts2 => simp [join2NL, nl2]

theorem rstrip_join2NL :
    ∀ ts : List (List Char), (∀ t ∈ ts, rstrip t = t ∧ t ≠ []) →
      rstrip (join2NL ts) = join2NL ts := by
  intro ts
  induction ts with
  | nil => intro _; rfl
  | cons t ts' ih =>
    intro h
    cases ts' with
    | nil => exact (h t (by simp)).1
    | cons t2 ts2 =>
      have hrec := ih (fun x hx => h x (by simp [hx]))
      have hne : join2NL (t2 :: ts2) ≠ [] := join2NL_ne_nil ts2 (h t2 (by simp)).2
      rw [show join2NL (t :: t2 :: ts2) = (t ++ nl2) ++ join2NL (t2 :: ts2) by
        simp [join2NL]]
      exact rstrip_append_of_fixed hrec hne (t ++ nl2)

theorem lstrip_join2NL_append {t : List Char} {ts : List (List Char)}
    (ht : lstrip t = t) (hne : t ≠ []) (z : List Char) :
    lstrip (join2NL (t :: ts) ++ z) = join2NL (t :: ts) ++ z := by
  cases ts with
  | nil => exact lstrip_append_of_fixed ht hne z
  | cons t2 ts2 =>
    rw [show join2NL (t :: t2 :: ts2) = t ++ (nl2 ++ join2NL (t2 :: ts2)) by
      simp [join2NL], List.append_assoc]
    exact lstrip_append_of_fixed ht hne _

/-- Stripping the accumulated markdown (texts join plus an optional trailing
separator) recovers exactly the join, provided every text is nonempty and
already stripped. -/
theorem strip_join2NL_append_tr {ts : List (List Char)} {tr : List Char}
    (h : ∀ t ∈ ts, strip t = t ∧ t ≠ []) (hts : ts ≠ [])
    (htr : tr = [] ∨ tr = nl2) :
    strip (join2NL ts ++ tr) = join2NL ts := by
  obtain ⟨t, ts', rfl⟩ : ∃ t ts', ts = t :: ts' := by
    cases ts with
    | nil => exact absurd rfl hts
    | cons a b => exact ⟨a, b, rfl⟩
  have hhead := h t (by simp)
  have hl : lstrip (join2NL (t :: ts') ++ tr) = join2NL (t :: ts') ++ tr :=
    lstrip_join2NL_append (lstrip_eq_of_strip_eq hhead.1) hhead.2 tr
  show rstrip (lstrip _) = _
  rw [hl]
  have hrfix : rstrip (join2NL (t :: ts')) = join2NL (t :: ts') :=
    rstrip_join2NL _ (fun x hx => ⟨rstrip_eq_of_strip_eq (h x hx).1, (h x hx).2⟩)
  rcases htr with rfl | rfl
  · rw [List.append_nil]
    exact hrfix
  · exact rstrip_append_ws hrfix nl2_all_space

theorem successTexts_mem {rs : List (Option (List Char))} {t : List Char}
    (ht : t ∈ successTexts rs) : some t ∈ rs ∧ t ≠ [] := by
  unfold successTexts at ht
  rw [List.mem_filter] at ht
  obtain ⟨hmem, hdec⟩ := ht
  rw [List.mem_filterMap] at hmem
  obtain ⟨o, ho, hid⟩ := hmem
  have ho' : o = some t := hid
  subst ho'
  exact ⟨ho, of_decide_eq_true hdec⟩

theorem allTrimmed_strip {rs : List (Option (List Char))} (h : allTrimmed rs = true)
    {c : List Char} (hc : some c ∈ rs) : strip c = c := by
  unfold allTrimmed at h
  rw [List.all_eq_true] at h
  have hcc := h (some c) hc
  simpa using hcc

theorem successTexts_ne_nil_of_any {rs : List (Option (List Char))}
    (h : anySuccess rs = true) : successTexts rs ≠ [] := by
  unfold anySuccess at h
  rw [List.any_eq_true] at h
  obtain ⟨r, hr, hmatch⟩ := h
  match r with
  | none => cases hmatch
  | some c =>
    have hc : c ≠ [] := by simpa using hmatch
    have hmem : c ∈ successTexts rs := by
      unfold successTexts
      rw [List.mem_filter]
      exact ⟨List.mem_filterMap.mpr ⟨some c, hr, rfl⟩, by simpa⟩
    intro hnil
    rw [hnil] at hmem
    cases hmem

/-- Successful run of the assembly: with every page text stripped and at
least one nonempty success, the pipeline returns the blank-line join of the
successful texts. -/
theorem convert_pdf_ok {rs : List (Option (List Char))}
    (htrim : allTrimmed rs = true) (hne : successTexts rs ≠ []) :
    convert_pdf_to_markdown rs = .ok (join2NL (successTexts rs)) := by
  have hrs : rs ≠ [] := by
    intro h
    rw [h] at hne
    exact hne rfl
  have hlen : ¬ rs.length = 0 := by
    intro h
    exact hrs (List.length_eq_zero.mp h)
  obtain ⟨tr, htr, hdec⟩ := assemble_decomp rs
  have hgo : assembleGo rs.length 0 rs = assemble rs :=
    assembleGo_eq_assemble rs.length rs 0 (by omega)
  have hall : ∀ t ∈ successTexts rs, strip t = t ∧ t ≠ [] := by
    intro t ht
    obtain ⟨hmem, htne⟩ := successTexts_mem ht
    exact ⟨allTrimmed_strip htrim hmem, htne⟩
  have hstrip : strip (assembleGo rs.length 0 rs) = join2NL (successTexts rs) := by
    rw [hgo, hdec]
    exact strip_join2NL_append_tr hall hne htr
  have hjoin_ne : join2NL (successTexts rs) ≠ [] := by
    obtain ⟨t, ts', hts⟩ : ∃ t ts', successTexts rs = t :: ts' := by
      cases hcase : successTexts rs with
      | nil => exact absurd hcase hne
      | cons a b => exact ⟨a, b, rfl⟩
    rw [hts]
    exact join2NL_ne_nil ts' (hall t (by rw [hts]; simp)).2
  unfold convert_pdf_to_markdown
  rw [if_neg hlen]
  dsimp only
  rw [hstrip, if_neg hjoin_ne]

/-! ## Facts about the duplicate-suppression line pass -/

/-- Unfolding of the line pass on one line. -/
theorem cleanLines_cons (seen : List (List Char)) (prev : Option Bool) (l : List Char)
    (ls : List (List Char)) :
    cleanLines seen prev (l :: ls)
      = if strip l = [] then
          (if prev = some true then cleanLines seen prev ls
           else [] :: cleanLines seen (some true) ls)
        else if lower (strip l) ∈ seen then cleanLines seen prev ls
        else strip l :: cleanLines (lower (strip l) :: seen) (some false) ls := by
  rw [cleanLines]

/-- The line pass only ever strips lines and drops lines: its output is a
sublist of the stripped input lines. -/
theorem cleanLines_sublist :
    ∀ (ls seen : List (List Char)) (prev : Option Bool),
      List.Sublist (cleanLines seen prev ls) (ls.map strip) := by
  intro ls
  induction ls with
  | nil => intro seen prev; simp [cleanLines]
  | cons l ls' ih =>
    intro seen prev
    rw [cleanLines_cons, List.map_cons]
    split_ifs with h1 h2 h3
    · exact List.Sublist.cons _ (ih seen prev)
    · rw [h1]
      exact List.Sublist.cons₂ _ (ih seen (some true))
    · exact List.Sublist.cons _ (ih seen prev)
    · exact List.Sublist.cons₂ _ (ih (lower (strip l) :: seen) (some false))

/-- Invariant of the line pass: every nonempty kept line is fresh relative
to `seen`, and the nonempty kept lines are pairwise distinct
case-insensitively. -/
theorem cleanLines_fresh :
    ∀ (ls seen : List (List Char)) (prev : Option Bool),
      (∀ t ∈ cleanLines seen prev ls, t ≠ [] → lower t ∉ seen) ∧
      (((cleanLines seen prev ls).filter (fun t => decide (t ≠ []))).map lower).Nodup := by
  intro ls
  induction ls with
  | nil => intro seen prev; exact ⟨by simp [cleanLines], by simp [cleanLines]⟩
  | cons l ls' ih =>
    intro seen prev
    rw [cleanLines_cons]
    split_ifs with h1 h2 h3
    · exact ih seen prev
    · refine ⟨?_, ?_⟩
      · intro t ht htne
        rcases List.mem_cons.mp ht with rfl | ht'
        · exact absurd rfl htne
        · exact (ih seen (some true)).1 t ht' htne
      · simpa using (ih seen (some true)).2
    · exact ih seen prev
    · have ihh := ih (lower (strip l) :: seen) (some false)
      refine ⟨?_, ?_⟩
      · intro t ht htne
        rcases List.mem_cons.mp ht with rfl | ht'
        · exact h3
        · have hfr := ihh.1 t ht' htne
          intro hseen
          exact hfr (List.mem_cons_of_mem _ hseen)
      · rw [List.filter_cons, if_pos (by simpa using h1), List.map_cons]
        refine List.Nodup.cons ?_ ihh.2
        intro hlow
        rw [List.mem_map] at hlow
        obtain ⟨t, ht, hteq⟩ := hlow
        rw [List.mem_filter] at ht
        have hfresh := ihh.1 t ht.1 (of_decide_eq_true ht.2)
        rw [hteq] at hfresh
        exact hfresh (List.mem_cons_self _ _)

/-! ## Decimal digits and the padded raster file names -/

theorem digitChar_inj_iff {x y : Nat} (hx : x < 10) (hy : y < 10) :
    digitChar x = digitChar y ↔ x = y := by
  interval_cases x <;> interval_cases y <;> decide

theorem digitChar_lt_iff {x y : Nat} (hx : x < 10) (hy : y < 10) :
    digitChar x < digitChar y ↔ x < y := by
  interval_cases x <;> interval_cases y <;> decide

theorem natDigitsAux_last (fuel : Nat) {n : Nat} (acc : List Char) (h : n < 10) :
    natDigitsAux (fuel + 1) n acc = digitChar (n % 10) :: acc := by
  simp only [natDigitsAux]
  rw [if_pos (by omega)]

theorem natDigitsAux_step (fuel : Nat) {n : Nat} (acc : List Char) (h : 10 ≤ n) :
    natDigitsAux (fuel + 1) n acc
      = natDigitsAux fuel (n / 10) (digitChar (n % 10) :: acc) := by
  simp only [natDigitsAux]
  rw [if_neg (by omega)]

theorem natDigits_eq_1 {n : Nat} (h : n < 10) : natDigits n = [digitChar n] := by
  unfold natDigits
  rw [natDigitsAux_last _ _ h, Nat.mod_eq_of_lt h]

theorem natDigits_eq_2 {n : Nat} (h1 : 10 ≤ n) (h2 : n < 100) :
    natDigits n = [digitChar (n / 10), digitChar (n % 10)] := by
  unfold natDigits
  rw [natDigitsAux_step _ _ h1]
  obtain ⟨m, rfl⟩ : ∃ m, n = m + 1 := ⟨n - 1, by omega⟩
  rw [natDigitsAux_last _ _ (by omega : (m + 1) / 10 < 10),
    Nat.mod_eq_of_lt (by omega : (m + 1) / 10 < 10)]

theorem natDigits_eq_3 {n : Nat} (h1 : 100 ≤ n) (h2 : n < 1000) :
    natDigits n
      = [digitChar (n / 100), digitChar (n / 10 % 10), digitChar (n % 10)] := by
  unfold natDigits
  rw [natDigitsAux_step _ _ (by omega)]
  obtain ⟨m, rfl⟩ : ∃ m, n = m + 1 := ⟨n - 1, by omega⟩
  rw [natDigitsAux_step _ _ (by omega : 10 ≤ (m + 1) / 10)]
  obtain ⟨k, rfl⟩ : ∃ k, m = k + 1 := ⟨m - 1, by omega⟩
  rw [natDigitsAux_last _ _ (by omega : (k + 1 + 1) / 10 / 10 < 10)]
  rw [Nat.div_div_eq_div_mul,
    Nat.mod_eq_of_lt (by omega : (k + 1 + 1) / (10 * 10) < 10)]

theorem natDigits_eq_4 {n : Nat} (h1 : 1000 ≤ n) (h2 : n < 10000) :
    natDigits n
      = [digitChar (n / 1000), digitChar (n / 100 % 10),
         digitChar (n / 10 % 10), digitChar (n % 10)] := by
  unfold natDigits
  rw [natDigitsAux_step _ _ (by omega)]
  obtain ⟨m, rfl⟩ : ∃ m, n = m + 1 := ⟨n - 1, by omega⟩
  rw [natDigitsAux_step _ _ (by omega : 10 ≤ (m + 1) / 10)]
  obtain ⟨k, rfl⟩ : ∃ k, m = k + 1 := ⟨m - 1, by omega⟩
  rw [natDigitsAux_step _ _ (by omega : 10 ≤ (k + 1 + 1) / 10 / 10)]
  obtain ⟨j, rfl⟩ : ∃ j, k = j + 1 := ⟨k - 1, by omega⟩
  rw [natDigitsAux_last _ _ (by omega : (j + 1 + 1 + 1) / 10 / 10 / 10 < 10)]
  rw [Nat.div_div_eq_div_mul, Nat.div_div_eq_div_mul, Nat.div_div_eq_div_mul,
    Nat.mod_eq_of_lt (by omega : (j + 1 + 1 + 1) / (10 * 10 * 10) < 10)]

theorem pad4_eq {n : Nat} (h : n ≤ 9999) :
    pad4 n = [digitChar (n / 1000), digitChar (n / 100 % 10),
              digitChar (n / 10 % 10), digitChar (n % 10)] := by
  unfold pad4
  have h0 : digitChar 0 = '0' := by decide
  by_cases c1 : n < 10
  · rw [natDigits_eq_1 c1]
    have e1 : n / 1000 = 0 := by omega
    have e2 : n / 100 % 10 = 0 := by omega
    have e3 : n / 10 % 10 = 0 := by omega
    have e4 : n % 10 = n := by omega
    rw [e1, e2, e3, e4, h0]
    rfl
  · by_cases c2 : n < 100
    · rw [natDigits_eq_2 (by omega) c2]
      have e1 : n / 1000 = 0 := by omega
      have e2 : n / 100 % 10 = 0 := by omega
      have e3 : n / 10 % 10 = n / 10 := by omega
      rw [e1, e2, e3, h0]
      rfl
    · by_cases c3 : n < 1000
      · rw [natDigits_eq_3 (by omega) c3]
        have e1 : n / 1000 = 0 := by omega
        have e2 : n / 100 % 10 = n / 100 := by omega
        rw [e1, e2, h0]
        rfl
      · rw [natDigits_eq_4 (by omega) (by omega)]
        rfl

theorem pad4_10000 : pad4 10000 = ['1', '0', '0', '0', '0'] := by decide

/-! ## The lexicographic string order on raster file names -/

theorem strLt_cons_same (c : Char) (a b : List Char) :
    strLt (c :: a) (c :: b) = strLt a b := by
  simp [strLt]

theorem strLt_self : ∀ l : List Char, strLt l l = false
  | [] => rfl
  | c :: cs => by rw [strLt_cons_same]; exact strLt_self cs

theorem strLt_digit_cons {x y : Nat} (hx : x < 10) (hy : y < 10)
    (a b : List Char) :
    strLt (digitChar x :: a) (digitChar y :: b)
      = if x = y then strLt a b else decide (x < y) := by
  by_cases hxy : x = y
  · subst hxy
    rw [strLt_cons_same, if_pos rfl]
  · have hne : digitChar x ≠ digitChar y := fun h => hxy ((digitChar_inj_iff hx hy).mp h)
    rw [if_neg hxy]
    show (if digitChar x = digitChar y then strLt a b else decide (digitChar x < digitChar y))
      = decide (x < y)
    rw [if_neg hne]
    by_cases hlt : x < y
    · rw [decide_eq_true ((digitChar_lt_iff hx hy).mpr hlt), decide_eq_true hlt]
    · rw [decide_eq_false (fun h => hlt ((digitChar_lt_iff hx hy).mp h)),
        decide_eq_false hlt]

theorem strLt_pad4_iff {a b : Nat} (ha : a ≤ 9999) (hb : b ≤ 9999) (s : List Char) :
    (strLt (pad4 a ++ s) (pad4 b ++ s) = true) ↔ a < b := by
  rw [pad4_eq ha, pad4_eq hb]
  simp only [List.cons_append, List.nil_append]
  rw [strLt_digit_cons (by omega) (by omega)]
  by_cases h1 : a / 1000 = b / 1000
  · rw [if_pos h1, strLt_digit_cons (by omega) (by omega)]
    by_cases h2 : a / 100 % 10 = b / 100 % 10
    · rw [if_pos h2, strLt_digit_cons (by omega) (by omega)]
      by_cases h3 : a / 10 % 10 = b / 10 % 10
      · rw [if_pos h3, strLt_digit_cons (by omega) (by omega)]
        by_cases h4 : a % 10 = b % 10
        · rw [if_pos h4, strLt_self]
          simp only [Bool.false_eq_true, false_iff]
          omega
        · rw [if_neg h4, decide_eq_true_eq]
          omega
      · rw [if_neg h3, decide_eq_true_eq]
        omega
    · rw [if_neg h2, decide_eq_true_eq]
      omega
  · rw [if_neg h1, decide_eq_true_eq]
    omega

theorem rasterFileName_lt_iff {i j : Nat} (hi : i ≤ 9998) (hj : j ≤ 9998) :
    (strLt (rasterFileName i) (rasterFileName j) = true) ↔ i < j := by
  unfold rasterFileName
  rw [show "page_".data = ['p', 'a', 'g', 'e', '_'] from rfl]
  simp only [List.cons_append, List.nil_append]
  rw [strLt_cons_same, strLt_cons_same, strLt_cons_same, strLt_cons_same,
    strLt_cons_same, strLt_pad4_iff (by omega) (by omega)]
  omega

theorem rasterFileName_not_lt {i j : Nat} (hi : i ≤ 9998) (hj : j ≤ 9998)
    (hij : j ≤ i) : strLt (rasterFileName i) (rasterFileName j) = false := by
  cases hb : strLt (rasterFileName i) (rasterFileName j)
  · rfl
  · have := (rasterFileName_lt_iff hi hj).mp hb
    omega

theorem rasterFileName_9999_lt {j : Nat} (h1 : 1000 ≤ j) (h2 : j ≤ 9998) :
    strLt (rasterFileName 9999) (rasterFileName j) = true := by
  unfold rasterFileName
  rw [show "page_".data = ['p', 'a', 'g', 'e', '_'] from rfl,
    show (9999 : Nat) + 1 = 10000 from rfl, pad4_10000,
    pad4_eq (by omega : j + 1 ≤ 9999)]
  simp only [List.cons_append, List.nil_append]
  rw [strLt_cons_same, strLt_cons_same, strLt_cons_same, strLt_cons_same,
    strLt_cons_same]
  rw [show ('1' : Char) = digitChar 1 from by decide,
    show ('0' : Char) = digitChar 0 from by decide]
  rw [strLt_digit_cons (by omega) (by omega)]
  by_cases e1 : 1 = (j + 1) / 1000
  · rw [if_pos e1, strLt_digit_cons (by omega) (by omega)]
    by_cases e2 : 0 = (j + 1) / 100 % 10
    · rw [if_pos e2, strLt_digit_cons (by omega) (by omega)]
      by_cases e3 : 0 = (j + 1) / 10 % 10
      · rw [if_pos e3, strLt_digit_cons (by omega) (by omega)]
        by_cases e4 : 0 = (j + 1) % 10
        · exfalso
          omega
        · rw [if_neg e4, decide_eq_true_eq]
          omega
      · rw [if_neg e3, decide_eq_true_eq]
        omega
    · rw [if_neg e2, decide_eq_true_eq]
      omega
  · rw [if_neg e1, decide_eq_true_eq]
    omega

theorem rasterFileName_9999_not_lt_999 :
    strLt (rasterFileName 9999) (rasterFileName 999) = false := by decide

theorem rasterFileName_ne_9999 {i : Nat} (hi : i ≤ 9998) :
    rasterFileName i ≠ rasterFileName 9999 := by
  intro h
  have hlen := congrArg List.length h
  rw [show (rasterFileName 9999).length = 14 from by decide] at hlen
  unfold rasterFileName at hlen
  rw [pad4_eq (by omega : i + 1 ≤ 9999)] at hlen
  simp [List.length_append] at hlen

theorem rasterFileName_inj {i j : Nat} (hi : i ≤ 9998) (hj : j ≤ 9998)
    (h : rasterFileName i = rasterFileName j) : i = j := by
  by_contra hne
  rcases Nat.lt_or_ge i j with hlt | hge
  · have hb := (rasterFileName_lt_iff hi hj).mpr hlt
    rw [h, strLt_self] at hb
    cases hb
  · have hlt : j < i := by omega
    have hb := (rasterFileName_lt_iff hj hi).mpr hlt
    rw [← h, strLt_self] at hb
    cases hb

/-! ## `sorted(img_paths)` on a document's raster file list -/

theorem insertSorted_cons_of_not_lt {x y : List Char} (h : strLt y x = false)
    (ys : List (List Char)) : insertSorted x (y :: ys) = x :: y :: ys := by
  rw [insertSorted, if_neg (by rw [h]; exact Bool.false_ne_true)]

theorem insertSorted_cons_of_lt {x y : List Char} (h : strLt y x = true)
    (ys : List (List Char)) : insertSorted x (y :: ys) = y :: insertSorted x ys := by
  rw [insertSorted, if_pos h]

/-- Sorting a list already in ascending order is the identity. -/
theorem pySorted_eq_self : ∀ {l : List (List Char)}, ascChainB l = true → pySorted l = l
  | [], _ => rfl
  | [_], _ => rfl
  | x :: y :: rest, h => by
    have hc : strLt y x = false ∧ ascChainB (y :: rest) = true := by
      have h' := h
      rw [show ascChainB (x :: y :: rest) = (!(strLt y x) && ascChainB (y :: rest))
        from rfl, Bool.and_eq_true, Bool.not_eq_true'] at h'
      exact h'
    rw [show pySorted (x :: y :: rest) = insertSorted x (pySorted (y :: rest)) from rfl,
      pySorted_eq_self hc.2]
    exact insertSorted_cons_of_not_lt hc.1 rest

theorem ascChainB_map_range' (f : Nat → List Char) :
    ∀ (len s : Nat), (∀ i, s ≤ i → i + 1 < s + len → strLt (f (i + 1)) (f i) = false) →
      ascChainB ((List.range' s len).map f) = true := by
  intro len
  induction len with
  | zero => intro s _; rfl
  | succ m ih =>
    intro s h
    cases m with
    | zero => rfl
    | succ k =>
      show ascChainB (f s :: f (s + 1) :: ((List.range' (s + 1 + 1) k).map f)) = true
      rw [show ascChainB (f s :: f (s + 1) :: ((List.range' (s + 1 + 1) k).map f))
          = (!(strLt (f (s + 1)) (f s))
             && ascChainB (f (s + 1) :: (List.range' (s + 1 + 1) k).map f)) from rfl,
        Bool.and_eq_true, Bool.not_eq_true']
      refine ⟨h s (Nat.le_refl s) (by omega), ?_⟩
      have := ih (s + 1) (fun i hi1 hi2 => h i (by omega) (by omega))
      simpa [List.range'] using this

/-- Sorting the raster list of a document of at most 9999 pages is the
identity: zero-padded four-digit file names sort in page order. -/
theorem pySorted_documentRasters {n : Nat} (hn : n ≤ 9999) :
    pySorted (documentRasters n) = documentRasters n := by
  apply pySorted_eq_self
  unfold documentRasters
  rw [List.range_eq_range']
  apply ascChainB_map_range'
  intro i hi0 hi1
  exact rasterFileName_not_lt (by omega) (by omega) (by omega)

/-- Upper region of the 10000-page sort: sorting pages `s+1 … 10000`
(0-based `s … 9999`) for `s ≥ 1000` moves `page_10000.jpg` to the front. -/
theorem pySorted_upper :
    ∀ (len s : Nat), 1000 ≤ s → s + len = 10000 → 1 ≤ len →
      pySorted ((List.range' s len).map rasterFileName)
        = rasterFileName 9999 :: (List.range' s (len - 1)).map rasterFileName := by
  intro len
  induction len with
  | zero => intro s _ _ h; omega
  | succ m ih =>
    intro s hs hsum _
    rw [show List.range' s (m + 1) = s :: List.range' (s + 1) m from rfl,
      List.map_cons,
      show pySorted (rasterFileName s :: (List.range' (s + 1) m).map rasterFileName)
        = insertSorted (rasterFileName s)
            (pySorted ((List.range' (s + 1) m).map rasterFileName)) from rfl]
    cases m with
    | zero =>
      have hs9 : s = 9999 := by omega
      subst hs9
      rfl
    | succ k =>
      rw [ih (s + 1) (by omega) (by omega) (by omega)]
      rw [insertSorted_cons_of_lt (rasterFileName_9999_lt (by omega) (by omega))]
      congr 1
      simp only [Nat.add_sub_cancel]
      cases k with
      | zero => rfl
      | succ k2 =>
        rw [show List.range' (s + 1) (k2 + 1) = (s + 1) :: List.range' (s + 1 + 1) k2
            from rfl, List.map_cons,
          insertSorted_cons_of_not_lt
            (rasterFileName_not_lt (by omega) (by omega) (by omega))]
        rfl

/-- Lower region of the 10000-page sort: sorting pages `s+1 … 10000` for
`s ≤ 1000` keeps pages up to 1000 in place with `page_10000.jpg` right
after page 1000. -/
theorem pySorted_lower :
    ∀ (len s : Nat), s + len = 1000 →
      pySorted ((List.range' s (len + 9000)).map rasterFileName)
        = (List.range' s len).map rasterFileName
          ++ rasterFileName 9999 :: (List.range' 1000 8999).map rasterFileName := by
  intro len
  induction len with
  | zero =>
    intro s hs
    have h0 : s = 1000 := by omega
    subst h0
    rw [show (0 : Nat) + 9000 = 9000 from rfl,
      pySorted_upper 9000 1000 (by omega) (by omega) (by omega)]
    rfl
  | succ m ih =>
    intro s hs
    rw [show m + 1 + 9000 = (m + 9000) + 1 from by omega,
      show List.range' s ((m + 9000) + 1) = s :: List.range' (s + 1) (m + 9000)
        from rfl, List.map_cons,
      show pySorted (rasterFileName s
          :: (List.range' (s + 1) (m + 9000)).map rasterFileName)
        = insertSorted (rasterFileName s)
            (pySorted ((List.range' (s + 1) (m + 9000)).map rasterFileName)) from rfl,
      ih (s + 1) (by omega)]
    cases m with
    | zero =>
      have hs9 : s = 999 := by omega
      subst hs9
      rw [show (List.range' (999 + 1) 0).map rasterFileName = [] from rfl,
        List.nil_append,
        insertSorted_cons_of_not_lt rasterFileName_9999_not_lt_999]
      rfl
    | succ k =>
      rw [show List.range' (s + 1) (k + 1) = (s + 1) :: List.range' (s + 1 + 1) k
          from rfl, List.map_cons, List.cons_append,
        insertSorted_cons_of_not_lt
          (rasterFileName_not_lt (by omega) (by omega) (by omega))]
      rfl

/-- The sorted raster list of a 10000-page document: pages 1–1000 in order,
then page 10000 (`page_10000.jpg`), then pages 1001–9999 — not ascending
page order. -/
theorem pySorted_documentRasters_10000 :
    pySorted (documentRasters 10000)
      = (List.range' 0 1000).map rasterFileName
        ++ rasterFileName 9999 :: (List.range' 1000 8999).map rasterFileName := by
  unfold documentRasters
  rw [List.range_eq_range']
  exact pySorted_lower 1000 0 (by omega)

/-! ## Per-page outcomes of the 10000-page run -/

theorem successTexts_append (a b : List (Option (List Char))) :
    successTexts (a ++ b) = successTexts a ++ successTexts b := by
  simp [successTexts, List.filterMap_append, List.filter_append]

theorem successTexts_map_none {g : List Char → Option (List Char)}
    {l : List (List Char)} (h : ∀ x ∈ l, g x = none) :
    successTexts (l.map g) = [] := by
  induction l with
  | nil => rfl
  | cons x xs ih =>
    rw [List.map_cons, h x (by simp), successTexts_cons_none]
    exact ih (fun y hy => h y (by simp [hy]))

theorem allTrimmed_append (a b : List (Option (List Char))) :
    allTrimmed (a ++ b) = (allTrimmed a && allTrimmed b) :=
  List.all_append

theorem allTrimmed_of_forall {rs : List (Option (List Char))}
    (h : ∀ r ∈ rs, ∀ c, r = some c → strip c = c) : allTrimmed rs = true := by
  unfold allTrimmed
  rw [List.all_eq_true]
  intro r hr
  match r with
  | none => rfl
  | some c => simpa using h (some c) hr c rfl

theorem anySuccess_of_mem {rs : List (Option (List Char))} {c : List Char}
    (hmem : some c ∈ rs) (hc : c ≠ []) : anySuccess rs = true := by
  unfold anySuccess
  rw [List.any_eq_true]
  exact ⟨some c, hmem, by simpa⟩

theorem pageTranscribe_none {i : Nat} (hi : i ≤ 9997) :
    pageTranscribe10000 (rasterFileName i) = none := by
  unfold pageTranscribe10000
  rw [if_neg (rasterFileName_ne_9999 (by omega)),
    if_neg (fun h => by
      have := rasterFileName_inj (by omega) (by omega) h
      omega)]

theorem pageTranscribe_9999 :
    pageTranscribe10000 (rasterFileName 9999) = some "B".data := by
  unfold pageTranscribe10000
  rw [if_pos rfl]

theorem pageTranscribe_9998 :
    pageTranscribe10000 (rasterFileName 9998) = some "A".data := by
  unfold pageTranscribe10000
  rw [if_neg (rasterFileName_ne_9999 (by omega)), if_pos rfl]

/-- All pages of the lower sorted region (pages 1–1000) fail under
`pageTranscribe10000`. -/
theorem pageTranscribe_none_lower :
    ∀ x ∈ (List.range' 0 1000).map rasterFileName, pageTranscribe10000 x = none := by
  intro x hx
  rw [List.mem_map] at hx
  obtain ⟨i, hi, rfl⟩ := hx
  rw [List.mem_range'_1] at hi
  exact pageTranscribe_none (by omega)

/-- All pages of the middle sorted region except the last (pages
1001–9998) fail under `pageTranscribe10000`. -/
theorem pageTranscribe_none_mid :
    ∀ x ∈ (List.range' 1000 8998).map rasterFileName,
      pageTranscribe10000 x = none := by
  intro x hx
  rw [List.mem_map] at hx
  obtain ⟨i, hi, rfl⟩ := hx
  rw [List.mem_range'_1] at hi
  exact pageTranscribe_none (by omega)

theorem range'_1000_split :
    List.range' 1000 8999 = List.range' 1000 8998 ++ [9998] := by
  have h := @List.range'_concat 1 1000 8998
  simpa using h

/-! ## Claim theorems -/

/-- C6: `remove_markdown_warp` strips a leading code fence matching the
declared language tag and a trailing ```` ``` ```` fence independently of
each other — an input with only the leading fence, or only the trailing
fence, is still partially cleaned — and trims surrounding whitespace;
in particular it maps ```` ```markdown\nA\n``` ```` to `A` and, with
language tag `python`, ```` ```python\nB\n``` ```` to `B`. -/
theorem rmw_strips_fences_independently :
    (∀ text language : List Char,
      startswith ('`' :: '`' :: '`' :: language) (strip text) = true →
      endswith ['`', '`', '`']
        ((strip text).drop ('`' :: '`' :: '`' :: language).length) = false →
      remove_markdown_warp text language
        = strip ((strip text).drop ('`' :: '`' :: '`' :: language).length)) ∧
    (∀ text language : List Char,
      startswith ('`' :: '`' :: '`' :: language) (strip text) = false →
      endswith ['`', '`', '`'] (strip text) = true →
      remove_markdown_warp text language = strip (dropRight (strip text) 3)) ∧
    remove_markdown_warp "```markdown\nA\n```".data "markdown".data = "A".data ∧
    remove_markdown_warp "```python\nB\n```".data "python".data = "B".data := by
  refine ⟨?_, ?_, by decide, by decide⟩
  · intro text language h1 h2
    unfold remove_markdown_warp
    rw [stripLeadingFence_pos h1, stripTrailingFence_neg h2]
  · intro text language h1 h2
    unfold remove_markdown_warp
    rw [stripLeadingFence_neg h1, stripTrailingFence_pos h2]

/-- Witness for C6: a text carrying only the leading fence is cleaned of
it, and a text carrying only the trailing fence is cleaned of it. -/
theorem rmw_strips_fences_independently_witness :
    remove_markdown_warp "```markdown\nonly leading".data "markdown".data
      = "only leading".data ∧
    remove_markdown_warp "only trailing\n```".data "markdown".data
      = "only trailing".data := by
  constructor
  · have h := rmw_strips_fences_independently.1
      "```markdown\nonly leading".data "markdown".data (by decide) (by decide)
    rw [h]
    decide
  · have h := rmw_strips_fences_independently.2.1
      "only trailing\n```".data "markdown".data (by decide) (by decide)
    rw [h]
    decide

/-- C7: the sanitizer is idempotent on any text whose sanitized form does
not itself carry a leading language fence or a trailing ```` ``` ````
fence (the formal reading of "no nested code fences"):
`sanitize (sanitize x) = sanitize x`. -/
theorem rmw_idempotent (text language : List Char)
    (h1 : startswith ('`' :: '`' :: '`' :: language)
      (remove_markdown_warp text language) = false)
    (h2 : endswith ['`', '`', '`'] (remove_markdown_warp text language) = false) :
    remove_markdown_warp (remove_markdown_warp text language) language
      = remove_markdown_warp text language := by
  conv_lhs => rw [remove_markdown_warp]
  rw [strip_fixed_rmw, stripLeadingFence_neg h1, stripTrailingFence_neg h2]
  exact strip_fixed_rmw text language

/-- Witness for C7 at the spec's own example text. -/
theorem rmw_idempotent_witness :
    remove_markdown_warp (remove_markdown_warp "```markdown\nA\n```".data "markdown".data)
      "markdown".data
      = remove_markdown_warp "```markdown\nA\n```".data "markdown".data :=
  rmw_idempotent "```markdown\nA\n```".data "markdown".data (by decide) (by decide)

/-- C1: for every `totalPages ≥ 1`, any integer `requestedStart` (expected
`≥ 1` but not trusted) and any `requestedEnd ≥ 0`, the page range the
`PDFWorker` ends up processing equals the spec's normalization policy —
out-of-bounds start resets to 1, end equal to 0 or beyond the total resets
to the total, then swap if start exceeds end — and satisfies
`1 ≤ start ≤ end ≤ totalPages`. The model is a total function: the
normalization never raises. -/
theorem pdfworker_range_normalizes (start_page end_page total_pages : Int)
    (htot : 1 ≤ total_pages) (hend : 0 ≤ end_page) :
    pdfworker_range start_page end_page total_pages
      = normalize_spec start_page end_page total_pages ∧
    1 ≤ (pdfworker_range start_page end_page total_pages).1 ∧
    (pdfworker_range start_page end_page total_pages).1
      ≤ (pdfworker_range start_page end_page total_pages).2 ∧
    (pdfworker_range start_page end_page total_pages).2 ≤ total_pages := by
  unfold pdfworker_range normalize_spec initNormalize extract_pages_bounds
  dsimp only
  split_ifs <;> simp_all [Prod.mk.injEq] <;> omega

/-- Witness for C1 at the spec's swap example `normalize(5, 3, 10)`. -/
theorem pdfworker_range_normalizes_witness :
    pdfworker_range 5 3 10 = normalize_spec 5 3 10 ∧
    1 ≤ (pdfworker_range 5 3 10).1 ∧
    (pdfworker_range 5 3 10).1 ≤ (pdfworker_range 5 3 10).2 ∧
    (pdfworker_range 5 3 10).2 ≤ 10 :=
  pdfworker_range_normalizes 5 3 10 (by decide) (by decide)

/-- C2 (code evidence): the assembly loops iterate `sorted(img_paths)`, a
lexicographic sort of the raster file names, and that order diverges from
ascending numeric page index once a page index exceeds four decimal digits:
the raster of 0-based page 9999 is named `page_10000.jpg`, which sorts
lexicographically before `page_9999.jpg`, the raster of page 9998 — so the
sorted iteration visits page 10000 before page 9999. -/
theorem sorted_raster_names_break_page_order :
    rasterFileName 9998 = "page_9999.jpg".data ∧
    rasterFileName 9999 = "page_10000.jpg".data ∧
    strLt (rasterFileName 9999) (rasterFileName 9998) = true ∧
    pySorted [rasterFileName 9998, rasterFileName 9999]
      = [rasterFileName 9999, rasterFileName 9998] := by
  refine ⟨by decide, by decide, by decide, by decide⟩

/-- C3 counterexample: in the CLI retry loop (`main.py`, `completion`),
exhausting the three attempts on transport failures does not raise — it
returns the empty string as a value (after three 0.5 s sleeps, one per
failure, including the last); and an empty response is not a retried
failure there — it is returned as-is after a single attempt with no sleep.
This contradicts the claim that the transcription call retries on any
transport or empty-response failure and raises on exhaustion. -/
theorem completion_exhaustion_returns_value :
    completionRetry (fun _ => none) 3 = ([], 3) ∧
    completionRetry (fun _ => some []) 3 = ([], 0) := by
  refine ⟨by decide, by decide⟩

/-- C3 amended: in the processor cores
(`_convert_image_to_markdown` of pdf2markdown_core.py / markpdfdown_core.py)
the completion call is attempted at most `retry_times` times (default 3),
retrying on both transport failure and empty response with no sleep between
attempts, and exhausting every attempt raises `ProcessingError`; in the CLI
helper (`completion` of main.py) only raising calls are retried, each
failure is followed by one 0.5 s sleep, and exhaustion returns the empty
string instead of raising, while an empty response is returned immediately
without any retry. -/
theorem retry_loops_behavior :
    (∀ (ollama : Bool) (responses : Nat → Option (List Char)) (rt : Nat),
      (convertImageRetry ollama responses rt).1 ≤ rt) ∧
    (∀ (ollama : Bool) (responses : Nat → Option (List Char)) (rt : Nat),
      (∀ i, i < rt → responses i = none ∨ responses i = some []) →
      (convertImageRetry ollama responses rt).2 = .error ()) ∧
    (∀ (responses : Nat → Option (List Char)) (rt : Nat),
      (∀ i, i < rt → responses i = none) →
      completionRetry responses rt = ([], rt)) ∧
    (∀ (responses : Nat → Option (List Char)) (rt : Nat) (r : List Char),
      0 < rt → responses 0 = some r → completionRetry responses rt = (r, 0)) := by
  refine ⟨?_, ?_, ?_, ?_⟩
  · intro ollama responses rt
    have h := convertImageGo_count_le ollama rt ((List.range rt).map responses) 0
    simpa [convertImageRetry] using h
  · intro ollama responses rt hall
    apply convertImageGo_error
    intro r hr
    rw [List.mem_map] at hr
    obtain ⟨i, hi, rfl⟩ := hr
    exact hall i (List.mem_range.mp hi)
  · intro responses rt hall
    unfold completionRetry
    rw [completionGo_all_none _ ?_ 0]
    · simp
    · intro r hr
      rw [List.mem_map] at hr
      obtain ⟨i, hi, rfl⟩ := hr
      exact hall i (List.mem_range.mp hi)
  · intro responses rt r hrt h0
    unfold completionRetry
    obtain ⟨n, rfl⟩ : ∃ n, rt = n + 1 := ⟨rt - 1, by omega⟩
    rw [List.range_succ_eq_map]
    simp only [List.map_cons, h0]
    rfl

/-- Witness for C3 amended: concrete instantiations — three raising calls
exhaust the core loop's budget and raise, the CLI loop returns the empty
string after three sleeps, and a first-call response is returned at once. -/
theorem retry_loops_behavior_witness :
    (convertImageRetry false (fun _ => none) 3).1 ≤ 3 ∧
    (convertImageRetry false (fun _ => none) 3).2 = .error () ∧
    completionRetry (fun _ => none) 3 = ([], 3) ∧
    completionRetry (fun _ => some ['a']) 3 = (['a'], 0) :=
  ⟨retry_loops_behavior.1 false (fun _ => none) 3,
   retry_loops_behavior.2.1 false (fun _ => none) 3 (fun i _ => Or.inl rfl),
   retry_loops_behavior.2.2.1 (fun _ => none) 3 (fun i _ => rfl),
   retry_loops_behavior.2.2.2 (fun _ => some ['a']) 3 ['a'] (by decide) rfl⟩

/-- Failure run of the assembly: nonempty page list but no nonempty
successful text raises `No content was generated from the PDF`. -/
theorem convert_pdf_noContent {rs : List (Option (List Char))} (hrs : rs ≠ [])
    (hts : successTexts rs = []) :
    convert_pdf_to_markdown rs = .error .noContent := by
  have hlen : ¬ rs.length = 0 := fun h => hrs (List.length_eq_zero.mp h)
  have hgo : assembleGo rs.length 0 rs = assemble rs :=
    assembleGo_eq_assemble _ rs 0 (by omega)
  have hnil : assemble rs = [] := assemble_eq_nil_of_no_success rs hts
  unfold convert_pdf_to_markdown
  rw [if_neg hlen]
  dsimp only
  rw [hgo, hnil, if_pos (show strip [] = [] from rfl)]

/-- C4 counterexample: the claim's "in ascending page order" fails on a real
run. In a 10000-page document where exactly pages 9999 and 10000 succeed
(with texts `A` and `B`), the pipeline — which iterates
`sorted(img_paths)` — assembles `B` before `A`, because `page_10000.jpg`
sorts lexicographically before `page_9999.jpg`; the successful pages' texts
in ascending page order would read `A` then `B`. -/
theorem assembled_document_not_in_page_order :
    convert_pdf_from_images (documentRasters 10000) pageTranscribe10000
      = .ok "B\n\nA".data ∧
    join2NL (successTexts ((documentRasters 10000).map pageTranscribe10000))
      = "A\n\nB".data ∧
    ("B\n\nA".data : List Char) ≠ "A\n\nB".data := by
  refine ⟨?_, ?_, by decide⟩
  · unfold convert_pdf_from_images
    have hres :
        (pySorted (documentRasters 10000)).map pageTranscribe10000
          = ((List.range' 0 1000).map rasterFileName).map pageTranscribe10000
            ++ some "B".data
              :: (((List.range' 1000 8998).map rasterFileName).map pageTranscribe10000
                  ++ [some "A".data]) := by
      rw [pySorted_documentRasters_10000, List.map_append, List.map_cons,
        pageTranscribe_9999, range'_1000_split, List.map_append, List.map_append,
        List.map_singleton, List.map_singleton, pageTranscribe_9998]
    have hsucc :
        successTexts ((pySorted (documentRasters 10000)).map pageTranscribe10000)
          = ["B".data, "A".data] := by
      rw [hres, successTexts_append, successTexts_map_none pageTranscribe_none_lower,
        successTexts_cons_some _ (by decide), successTexts_append,
        successTexts_map_none pageTranscribe_none_mid]
      rfl
    have htrim :
        allTrimmed ((pySorted (documentRasters 10000)).map pageTranscribe10000)
          = true := by
      apply allTrimmed_of_forall
      rw [hres]
      intro r hr c hc
      rcases List.mem_append.mp hr with h | h
      · rw [List.mem_map] at h
        obtain ⟨x, hx, rfl⟩ := h
        rw [pageTranscribe_none_lower x hx] at hc
        cases hc
      · rcases List.mem_cons.mp h with rfl | h
        · cases hc
          decide
        · rcases List.mem_append.mp h with h | h
          · rw [List.mem_map] at h
            obtain ⟨x, hx, rfl⟩ := h
            rw [pageTranscribe_none_mid x hx] at hc
            cases hc
          · rw [List.mem_singleton] at h
            subst h
            cases hc
            decide
    rw [convert_pdf_ok htrim (by rw [hsucc]; intro h; cases h), hsucc]
    rfl
  · have hsplit1 : List.range 10000 = List.range 9999 ++ [9999] := List.range_succ 9999
    have hsplit2 : List.range 9999 = List.range 9998 ++ [9998] := List.range_succ 9998
    have hnone :
        ∀ x ∈ (List.range 9998).map rasterFileName, pageTranscribe10000 x = none := by
      intro x hx
      rw [List.mem_map] at hx
      obtain ⟨i, hi, rfl⟩ := hx
      rw [List.mem_range] at hi
      exact pageTranscribe_none (by omega)
    unfold documentRasters
    rw [hsplit1, hsplit2, List.map_append, List.map_append, List.map_singleton,
      List.map_singleton, List.map_append, List.map_append, List.map_singleton,
      List.map_singleton, pageTranscribe_9998, pageTranscribe_9999,
      successTexts_append, successTexts_append, successTexts_map_none hnone]
    rfl

/-- C4 amended: for every run of a document with at most 9999 pages — where
the zero-padded raster file names sort in page order, so the loop's
`sorted(img_paths)` iteration is the identity — in which every page text is
sanitizer output (stripped) and at least one page succeeded with nonempty
text, a per-page transcription failure neither aborts the pipeline nor
raises: the assembled document is exactly the blank-line join, in ascending
page order, of the successful pages' nonempty texts, failed pages
contributing nothing. (Beyond 9999 pages the assembly instead follows the
lexical file-name order — the C2 bug.) -/
theorem assembled_document_in_page_order (n : Nat) (hn : n ≤ 9999)
    (transcribe : List Char → Option (List Char))
    (htrim : allTrimmed ((documentRasters n).map transcribe) = true)
    (hsome : anySuccess ((documentRasters n).map transcribe) = true) :
    convert_pdf_from_images (documentRasters n) transcribe
      = .ok (join2NL (successTexts ((documentRasters n).map transcribe))) := by
  unfold convert_pdf_from_images
  rw [pySorted_documentRasters hn]
  exact convert_pdf_ok htrim (successTexts_ne_nil_of_any hsome)

/-- Witness for C4 amended at the spec's end-to-end example: a 3-page
document with page 2 failing assembles pages 1 and 3's text joined by one
blank line, in page order. -/
theorem assembled_document_in_page_order_witness :
    convert_pdf_from_images (documentRasters 3) transcribeThreePages
      = .ok "Page one\n\nPage three".data := by
  have h := assembled_document_in_page_order 3 (by omega) transcribeThreePages
    (by decide) (by decide)
  rw [h]
  decide

/-- C5: with every page text stripped, the pipeline fails — returning no
assembled document — exactly in the two document-level cases: an empty
rasterization result (`noImages`) and no page contributing nonempty text
(`noContent`); in every other situation it returns a document. -/
theorem pipeline_fatal_errors_characterized (results : List (Option (List Char)))
    (htrim : allTrimmed results = true) :
    (results = [] → convert_pdf_to_markdown results = .error .noImages) ∧
    (results ≠ [] → successTexts results = [] →
      convert_pdf_to_markdown results = .error .noContent) ∧
    ((∃ e, convert_pdf_to_markdown results = .error e) ↔
      results = [] ∨ successTexts results = []) := by
  refine ⟨?_, ?_, ?_⟩
  · intro h
    subst h
    rfl
  · exact fun h1 h2 => convert_pdf_noContent h1 h2
  · constructor
    · rintro ⟨e, he⟩
      by_contra hcon
      push_neg at hcon
      obtain ⟨h1, h2⟩ := hcon
      rw [convert_pdf_ok htrim h2] at he
      cases he
    · rintro (h | h)
      · subst h
        exact ⟨.noImages, rfl⟩
      · by_cases hr : results = []
        · subst hr
          exact ⟨.noImages, rfl⟩
        · exact ⟨.noContent, convert_pdf_noContent hr h⟩

/-- Witness for C5: the empty rasterization result raises `noImages`, and a
2-page run where both transcriptions fail raises `noContent`. -/
theorem pipeline_fatal_errors_characterized_witness :
    convert_pdf_to_markdown ([] : List (Option (List Char))) = .error .noImages ∧
    convert_pdf_to_markdown [none, none] = .error .noContent := by
  have h1 := (pipeline_fatal_errors_characterized [] (by decide)).1
  have h2 := (pipeline_fatal_errors_characterized [none, none] (by decide)).2.1
  exact ⟨h1 rfl, h2 (by decide) (by decide)⟩

/-- C8 counterexample: the duplicate-suppression pass does not leave
non-duplicate content unaltered. The input `"X\n  A\nB"` contains no
duplicate line and no duplicate paragraph, yet `_clean_ollama_output`
rewrites it to `"X\nA\nB"`, stripping the interior line's leading
whitespace. -/
theorem clean_ollama_alters_non_duplicate_content :
    clean_ollama_output "X\n  A\nB".data = "X\nA\nB".data ∧
    "X\nA\nB".data ≠ "X\n  A\nB".data := by
  refine ⟨by decide, by decide⟩

/-- C8 amended: the pass drops case-insensitive duplicate nonempty lines
(globally, first occurrence kept — the kept nonempty lines are pairwise
distinct case-insensitively) and duplicate paragraphs, and the line pass
only strips or drops lines (its output is a sublist of the stripped input
lines, so nothing is invented or reordered); but it does not leave
non-duplicate content byte-identical: each line is stripped of surrounding
whitespace and runs of blank lines collapse to one. It maps `"A\n\nB\n\nA"`
to `"A\n\nB"` and `"X\n  A\nB"` to `"X\nA\nB"`. -/
theorem clean_ollama_dedup_behavior :
    clean_ollama_output "A\n\nB\n\nA".data = "A\n\nB".data ∧
    clean_ollama_output "X\n  A\nB".data = "X\nA\nB".data ∧
    (∀ (ls seen : List (List Char)) (prev : Option Bool),
      List.Sublist (cleanLines seen prev ls) (ls.map strip)) ∧
    (∀ ls : List (List Char),
      (((cleanLines [] none ls).filter (fun t => decide (t ≠ []))).map lower).Nodup) := by
  refine ⟨by decide, by decide, cleanLines_sublist, fun ls => (cleanLines_fresh ls [] none).2⟩

/-- C9 counterexample: the CLI pipeline of `main.py` does not release its
working directory on every exit path — when `create_worker` raises (for
example on an unsupported file type) the script exits with an error and
`shutil.rmtree(output_dir)` never runs. -/
theorem main_run_no_cleanup_on_error :
    main_run false ["Page".data] = (.error (), false) := by
  decide

/-- C9 amended: the Streamlit-core pipeline
(`convert_pdf_to_markdown` of pdf2markdown_core.py) releases its temporary
directory on every exit path, success or failure, via its `finally` block;
the CLI script (`main.py`) removes its working directory only on the
successful path — an error exit leaves it in place. -/
theorem cleanup_runs_on_exit_paths :
    (∀ (copyOk workerOk : Bool) (results : List (Option (List Char))),
      (convert_pdf_run copyOk workerOk results).2 = true) ∧
    (∀ ts : List (List Char), (main_run true ts).2 = true) ∧
    (∀ ts : List (List Char), (main_run false ts).2 = false) := by
  refine ⟨fun _ _ _ => rfl, fun _ => rfl, fun _ => rfl⟩

/-- C10: the sanitizer's output is a contiguous substring of its input — it
never invents, reorders, or rewrites characters — carries no leading or
trailing whitespace (it is both `lstrip`- and `rstrip`-fixed), and is never
longer than the input. -/
theorem rmw_substring_no_outer_whitespace (text language : List Char) :
    (∃ a b, text = a ++ remove_markdown_warp text language ++ b) ∧
    lstrip (remove_markdown_warp text language) = remove_markdown_warp text language ∧
    rstrip (remove_markdown_warp text language) = remove_markdown_warp text language ∧
    (remove_markdown_warp text language).length ≤ text.length := by
  refine ⟨rmw_sand text language, ?_, ?_, sand_length_le (rmw_sand text language)⟩
  · exact lstrip_eq_of_strip_eq (strip_fixed_rmw text language)
  · exact rstrip_eq_of_strip_eq (strip_fixed_rmw text language)

end Pdf2Markdown
